import Mathlib

/-!
Verification of `javatools/manifest.py` (python-javatools).

Python 2 byte strings are modelled as `List Char` (the repository only
handles ASCII manifest data, where character-wise and byte-wise reasoning
coincide).  Python exceptions are modelled with `Except PyExc`.  A
`hashlib` digest object is modelled by the byte string it has been fed so
far; the hash compression function itself is an abstract parameter
`H : PStr → PStr`, and `base64.b64encode` an abstract `b64 : PStr → PStr`.
-/

namespace Jvt

/-- Python 2 `str` (a byte string), modelled as a list of characters. -/
abbrev PStr := List Char

/-- The Python exceptions that the modelled code can raise. -/
inductive PyExc where
  /-- `ManifestKeyException` from `manifest.py`. -/
  | manifestKeyException : PyExc
  /-- `MalformedManifest` carrying the (0-based) `lineno` from `enumerate`. -/
  | malformedManifest (lineno : Nat) : PyExc
  /-- `TypeError`, e.g. writing `None` to a `cStringIO` stream. -/
  | typeError : PyExc
  /-- `IndexError`, e.g. `[0]` on an empty `splitlines()` result. -/
  | indexError : PyExc
  /-- `ValueError`, e.g. unpacking a 1-element `split` result into 2 names. -/
  | valueError : PyExc
  /-- `StopIteration` escaping from `sections.next()` in `Manifest.parse`. -/
  | stopIteration : PyExc
  deriving DecidableEq, Repr

/-- The continuation-chunk loop of `write_key_val`: after the first 70
characters are written, the remaining buffer is emitted 69 characters at a
time, each chunk preceded by `linesep` and a single space
(`manifest.py` lines 557-562). -/
def foldRest (linesep : PStr) (buf : PStr) : PStr :=
  if h : buf = [] then []
  else linesep ++ ' ' :: buf.take 69 ++ foldRest linesep (buf.drop 69)
termination_by buf.length
decreasing_by
  simp only [List.length_drop]
  have : 0 < buf.length := List.length_pos.mpr h
  omega

/-- `write_key_val(stream, key, val, linesep)` from `manifest.py` lines
535-569, returning the bytes written to the stream.  The `linesep`
argument is `Option PStr` because `None` can flow in from
`Manifest.get_main_section`; every code path ends in
`stream.write(linesep)`, which raises `TypeError` on `None`. -/
def write_key_val (key val : PStr) (linesep : Option PStr) : Except PyExc PStr :=
  if ¬ (0 < key.length ∧ key.length < 69) then
    .error .manifestKeyException
  else
    match linesep with
    | none => .error .typeError
    | some sep =>
      let kv := key ++ ':' :: ' ' :: val
      if key.length + val.length > 68 then
        .ok (kv.take 70 ++ foldRest sep (kv.drop 70) ++ sep)
      else
        .ok (kv ++ sep)

/-- The claim's description of the writer, transcribed from the spec's
words: compute `key: value`; if its length exceeds 68, write the first 70
characters and then 69-character chunks each preceded by the separator and
one space; otherwise write `key: value`; always terminate with the
separator. -/
def write_key_val_claim (key val : PStr) (sep : PStr) : PStr :=
  let kv := key ++ ':' :: ' ' :: val
  if kv.length > 68 then
    kv.take 70 ++ foldRest sep (kv.drop 70) ++ sep
  else
    kv ++ sep

/-- `ManifestSection` content: the ordered key/value pairs of an
`OrderedDict`. -/
abbrev Sect := List (PStr × PStr)

/-- `OrderedDict` assignment: an existing key keeps its position and gets
the new value, a new key is appended at the end. -/
def odInsert {κ ν : Type} [DecidableEq κ] (s : List (κ × ν)) (k : κ) (v : ν) :
    List (κ × ν) :=
  match s with
  | [] => [(k, v)]
  | kv :: rest => if kv.1 = k then (k, v) :: rest else kv :: odInsert rest k v

/-- `OrderedDict` lookup (first, hence unique, binding of the key). -/
def odLookup {κ ν : Type} [DecidableEq κ] (s : List (κ × ν)) (k : κ) : Option ν :=
  match s with
  | [] => none
  | kv :: rest => if kv.1 = k then some kv.2 else odLookup rest k

/-- `ManifestSection.__setitem__` (`manifest.py` lines 200-212): keys
longer than 68 characters raise `ManifestKeyException`; any other key
(including the empty key) is stored. -/
def setitem (s : Sect) (k v : PStr) : Except PyExc Sect :=
  if k.length > 68 then .error .manifestKeyException
  else .ok (odInsert s k v)

/-- Concatenation of physical lines, each terminated by `sep`. -/
def lineJoin (sep : PStr) (ls : List PStr) : PStr :=
  (ls.map (fun l => l ++ sep)).flatten

/-- The 69-character chunks that the continuation loop of `write_key_val`
reads from the remaining buffer. -/
def chunks69 (buf : PStr) : List PStr :=
  if h : buf = [] then []
  else buf.take 69 :: chunks69 (buf.drop 69)
termination_by buf.length
decreasing_by
  simp only [List.length_drop]
  have : 0 < buf.length := List.length_pos.mpr h
  omega

theorem foldRest_lineJoin (sep : PStr) (buf : PStr) :
    foldRest sep buf ++ sep = sep ++ lineJoin sep ((chunks69 buf).map (' ' :: ·)) := by
  induction buf using chunks69.induct with
  | case1 =>
    rw [foldRest, chunks69]
    simp [lineJoin]
  | case2 buf h ih =>
    rw [foldRest, chunks69]
    simp only [h, dite_false, List.map_cons, lineJoin, List.flatten_cons]
    simp only [lineJoin] at ih
    rw [List.append_assoc, List.append_assoc, ih]
    simp

theorem chunks69_length_le (buf : PStr) : ∀ c ∈ chunks69 buf, c.length ≤ 69 := by
  induction buf using chunks69.induct with
  | case1 => rw [chunks69]; simp
  | case2 buf h ih =>
    rw [chunks69]
    simp only [h, dite_false, List.mem_cons]
    rintro c (rfl | hc)
    · simp [List.length_take]
    · exact ih c hc

theorem chunks69_singleton (buf : PStr) (h0 : buf ≠ []) (h69 : buf.length ≤ 69) :
    chunks69 buf = [buf] := by
  rw [chunks69]
  simp only [h0, dite_false]
  rw [chunks69]
  simp [List.drop_eq_nil_of_le h69, List.take_of_length_le h69]

theorem kv_length (key val : PStr) :
    (key ++ ':' :: ' ' :: val).length = key.length + val.length + 2 := by
  simp
  omega

/-- C2: for every key of valid length and every value, the bytes written by
`write_key_val` are exactly those described by the spec's folding recipe
(fold `key: value` after 70 characters, then 69-character chunks each
preceded by the separator and one space, final separator; short pairs and
the empty value are written unfolded).  The spec's branch point (length of
`key: value` over 68) and the code's (key length + value length over 68)
produce identical output, because a `key: value` of length 69 or 70 fits
entirely in the first 70-character read and the chunk loop is empty. -/
theorem C2_write_key_val_folding (key val sep : PStr)
    (h1 : 0 < key.length) (h2 : key.length < 69) :
    write_key_val key val (some sep) = .ok (write_key_val_claim key val sep) := by
  have hk : ¬¬(0 < key.length ∧ key.length < 69) := not_not_intro ⟨h1, h2⟩
  simp only [write_key_val, write_key_val_claim, if_neg hk]
  have hlen := kv_length key val
  by_cases hf : key.length + val.length > 68
  · rw [if_pos hf, if_pos (by omega)]
  · rw [if_neg hf]
    by_cases hg : (key ++ ':' :: ' ' :: val).length > 68
    · rw [if_pos hg]
      have h70 : (key ++ ':' :: ' ' :: val).length ≤ 70 := by omega
      rw [List.take_of_length_le h70, List.drop_eq_nil_of_le h70]
      rw [foldRest]
      simp
    · rw [if_neg hg]

theorem C2_write_key_val_folding_witness :
    0 < ("Name".toList : PStr).length ∧ ("Name".toList : PStr).length < 69 ∧
    write_key_val "Name".toList "x".toList (some ['\n']) =
      .ok (write_key_val_claim "Name".toList "x".toList ['\n']) :=
  ⟨by decide, by decide,
   C2_write_key_val_folding "Name".toList "x".toList ['\n'] (by decide) (by decide)⟩

/-- C3: every physical line emitted by `write_key_val` (its terminator
included) is at most 72 bytes long, for the standard line separators of at
most 2 bytes; and when the combined key+value length is exactly 69 the
output consists of exactly two physical lines, i.e. exactly one
continuation line. -/
theorem C3_line_length_bound (key val sep : PStr)
    (h1 : 0 < key.length) (h2 : key.length < 69) (hsep : sep.length ≤ 2) :
    ∃ ls : List PStr,
      write_key_val key val (some sep) = .ok (lineJoin sep ls) ∧
      (∀ l ∈ ls, l.length + sep.length ≤ 72) ∧
      (key.length + val.length = 69 → ls.length = 2) := by
  have hk : ¬¬(0 < key.length ∧ key.length < 69) := not_not_intro ⟨h1, h2⟩
  have hlen := kv_length key val
  by_cases hf : key.length + val.length > 68
  · refine ⟨(key ++ ':' :: ' ' :: val).take 70 ::
        (chunks69 ((key ++ ':' :: ' ' :: val).drop 70)).map (' ' :: ·), ?_, ?_, ?_⟩
    · simp only [write_key_val, if_neg hk, if_pos hf]
      congr 1
      simp only [lineJoin, List.map_cons, List.flatten_cons]
      rw [List.append_assoc, foldRest_lineJoin]
      simp [lineJoin]
    · intro l hl
      rcases List.mem_cons.mp hl with rfl | hl
      · have : ((key ++ ':' :: ' ' :: val).take 70).length ≤ 70 := by
          simp [List.length_take]
        omega
      · obtain ⟨c, hc, rfl⟩ := List.mem_map.mp hl
        have := chunks69_length_le _ c hc
        simp only [List.length_cons]
        omega
    · intro h69
      have hrl : ((key ++ ':' :: ' ' :: val).drop 70).length = 1 := by
        simp only [List.length_drop]
        omega
      rw [chunks69_singleton _ (by
            intro hh
            rw [hh] at hrl
            simp at hrl) (by omega)]
      simp
  · refine ⟨[key ++ ':' :: ' ' :: val], ?_, ?_, ?_⟩
    · simp only [write_key_val, if_neg hk, if_neg hf]
      simp [lineJoin]
    · intro l hl
      rw [List.mem_singleton] at hl
      subst hl
      omega
    · intro h69
      omega

instance {ε α : Type} [DecidableEq ε] [DecidableEq α] : DecidableEq (Except ε α) :=
  fun a b =>
    match a, b with
    | .error e, .error f =>
      if h : e = f then isTrue (by rw [h])
      else isFalse (fun hh => by injection hh; contradiction)
    | .ok x, .ok y =>
      if h : x = y then isTrue (by rw [h])
      else isFalse (fun hh => by injection hh; contradiction)
    | .error _, .ok _ => isFalse (fun hh => Except.noConfusion hh)
    | .ok _, .error _ => isFalse (fun hh => Except.noConfusion hh)

theorem C3_line_length_bound_witness :
    0 < ("Key".toList : PStr).length ∧ ("Key".toList : PStr).length < 69 ∧
    (['\r', '\n'] : PStr).length ≤ 2 ∧
    ∃ ls : List PStr,
      write_key_val "Key".toList
        "aaaaaaaaaaaaaaaaaaaaaaaaaaaaaaaaaaaaaaaaaaaaaaaaaaaaaaaaaaaaaaaaaa".toList
        (some ['\r', '\n']) = .ok (lineJoin ['\r', '\n'] ls) ∧
      (∀ l ∈ ls, l.length + (['\r', '\n'] : PStr).length ≤ 72) ∧
      (("Key".toList : PStr).length +
        ("aaaaaaaaaaaaaaaaaaaaaaaaaaaaaaaaaaaaaaaaaaaaaaaaaaaaaaaaaaaaaaaaaa".toList : PStr).length = 69 →
        ls.length = 2) :=
  ⟨by decide, by decide, by decide,
   C3_line_length_bound "Key".toList
     "aaaaaaaaaaaaaaaaaaaaaaaaaaaaaaaaaaaaaaaaaaaaaaaaaaaaaaaaaaaaaaaaaa".toList
     ['\r', '\n'] (by decide) (by decide) (by decide)⟩

/-- C4 counterexample: assigning an attribute with an *empty* name does
not raise at construction time — `ManifestSection.__setitem__` only checks
the upper bound `len(k) > 68` — so the empty key is accepted and stored. -/
theorem C4_counterexample_empty_key_accepted :
    setitem [("Name".toList, "x".toList)] [] "v".toList =
      .ok [("Name".toList, "x".toList), ([], "v".toList)] ∧
    setitem [("Name".toList, "x".toList)] [] "v".toList ≠
      .error .manifestKeyException := by
  constructor
  · rfl
  · decide

/-- C4 (amended): `ManifestSection.__setitem__` raises
`ManifestKeyException` exactly when the attribute name is longer than 68
characters (so a 68-character name succeeds and a 69-character name
raises), while the *empty* name is accepted at assignment time and is only
rejected later, at serialization, where `write_key_val` raises
`ManifestKeyException` for it. -/
theorem C4_setitem_key_length (s : Sect) (k v : PStr) :
    (setitem s k v = .error .manifestKeyException ↔ 68 < k.length) ∧
    (k.length ≤ 68 → setitem s k v = .ok (odInsert s k v)) ∧
    (∀ val sep, write_key_val [] val sep = .error .manifestKeyException) := by
  refine ⟨⟨fun h => ?_, fun h => ?_⟩, fun h => ?_, fun val sep => ?_⟩
  · by_contra hk
    simp only [setitem] at h
    rw [if_neg hk] at h
    exact Except.noConfusion h
  · simp only [setitem]
    rw [if_pos h]
  · simp only [setitem]
    rw [if_neg (by omega)]
  · simp only [write_key_val]
    rw [if_pos (by simp)]

theorem C4_setitem_key_length_witness :
    (setitem [] (List.replicate 68 'a') "v".toList =
      .ok (odInsert [] (List.replicate 68 'a') "v".toList)) ∧
    (setitem [] (List.replicate 69 'a') "v".toList =
      .error .manifestKeyException) ∧
    (write_key_val [] "v".toList (some ['\n']) = .error .manifestKeyException) :=
  ⟨(C4_setitem_key_length [] (List.replicate 68 'a') "v".toList).2.1 (by decide),
   (C4_setitem_key_length [] (List.replicate 69 'a') "v".toList).1.2 (by decide),
   (C4_setitem_key_length [] [] [] ).2.2 "v".toList (some ['\n'])⟩

/-- The key/value fragments of one tokenized section: each key is paired
with the list of value fragments (one per physical line). -/
abbrev KVF := PStr × List PStr

/-- The line cleanup of `parse_sections`
(`line.replace('\x00', '').splitlines()[0]`): strip NUL bytes, then take
the first element of `splitlines` — the characters before the first line
boundary — which raises `IndexError` when the NUL-stripped line is empty. -/
def cleanline (line : PStr) : Except PyExc PStr :=
  if line.filter (fun c => c != '\x00') = [] then .error .indexError
  else .ok ((line.filter (fun c => c != '\x00')).takeWhile
      (fun c => c != '\r' && c != '\n'))

/-- `curr[-1][1].append(fragment)`: append a continuation fragment to the
value-fragment list of the most recent key of the current section. -/
def appendCont (kvs : List KVF) (frag : PStr) : List KVF :=
  match kvs with
  | [] => []
  | [kv] => [(kv.1, kv.2 ++ [frag])]
  | kv :: rest => kv :: appendCont rest frag

/-- The loop body of `parse_sections` (`manifest.py` lines 503-532),
iterating over the physical lines with `enumerate` (0-based `lineno`),
carrying the current section `curr` and the sections yielded so far. -/
def psLoop (lines : List PStr) (lineno : Nat) (curr : Option (List KVF))
    (acc : List (List KVF)) : Except PyExc (List (List KVF)) :=
  match lines with
  | [] =>
    -- after the loop: `if curr: yield curr` (empty list is falsy)
    match curr with
    | some (kv :: kvs) => .ok (acc ++ [kv :: kvs])
    | _ => .ok acc
  | line :: rest =>
    match cleanline line with
    | .error e => .error e
    | .ok cl =>
      if cl = [] then
        -- blank line ends the current section, if any
        match curr with
        | some (kv :: kvs) => psLoop rest (lineno + 1) none (acc ++ [kv :: kvs])
        | _ => psLoop rest (lineno + 1) curr acc
      else if cl.head? = some ' ' then
        -- continuation line
        match curr with
        | none => .error (.malformedManifest lineno)
        | some [] => .error .indexError
        | some (kv :: kvs) =>
          psLoop rest (lineno + 1) (some (appendCont (kv :: kvs) (cl.drop 1))) acc
      else
        -- `key, val = cleanline.split(':', 1)`
        if (cl.takeWhile (fun c => c != ':')).length = cl.length then
          .error .valueError
        else
          psLoop rest (lineno + 1)
            (some ((curr.getD []) ++
              [(cl.takeWhile (fun c => c != ':'),
                [(cl.drop ((cl.takeWhile (fun c => c != ':')).length + 1)).drop 1])]))
            acc

/-- Iteration over a `cStringIO` stream yields the pieces of the string
cut after every newline character (the final piece, if newline-less, is
kept). -/
def splitGo (s : PStr) (rev : PStr) : List PStr :=
  match s with
  | [] => if rev = [] then [] else [rev.reverse]
  | c :: rest =>
    if c = '\n' then (rev.reverse ++ ['\n']) :: splitGo rest []
    else splitGo rest (c :: rev)

/-- Physical lines of a string, as Python's line iteration yields them. -/
def pySplitLines (s : PStr) : List PStr := splitGo s []

/-- `parse_sections(data)` (`manifest.py` lines 481-532): the empty input
yields no sections at all, otherwise the line loop runs. -/
def parse_sections (data : PStr) : Except PyExc (List (List KVF)) :=
  if data = [] then .ok []
  else psLoop (pySplitLines data) 0 none []

theorem psLoop_blanks (pre : List PStr) (rest : List PStr) (n : Nat)
    (acc : List (List KVF)) (hpre : ∀ p ∈ pre, cleanline p = .ok []) :
    psLoop (pre ++ rest) n none acc = psLoop rest (n + pre.length) none acc := by
  induction pre generalizing n with
  | nil => simp
  | cons p ps ih =>
    simp only [List.cons_append, psLoop]
    rw [hpre p (by simp)]
    simp only [if_true, List.append_eq]
    rw [ih (n + 1) (fun q hq => hpre q (by simp [hq]))]
    congr 1
    simp only [List.length_cons]
    omega

/-- C5 counterexample: tokenizing `" continued"` as the very first line
raises `MalformedManifest` citing line **0** — `enumerate` numbers lines
from 0 — not line 1 as the claim states. -/
theorem C5_counterexample_lineno :
    parse_sections " continued".toList = .error (.malformedManifest 0) ∧
    parse_sections " continued".toList ≠ .error (.malformedManifest 1) := by
  constructor
  · rfl
  · decide

/-- The comparison options consulted by `is_ignored` via `getattr`. -/
structure DiffOptions where
  ignore_manifest_subsections : Bool
  ignore_manifest_key : Finset PStr

/-- `set(k for k,v in lset.symmetric_difference(rset))`: the keys touched
by the symmetric difference of the two sections' item sets. -/
def changedKeys (l r : Sect) : Finset PStr :=
  ((l.toFinset \ r.toFinset) ∪ (r.toFinset \ l.toFinset)).image Prod.fst

/-- `ManifestSectionChange.is_ignored` (`manifest.py` lines 100-112). -/
def sectionChange_is_ignored (l r : Sect) (o : DiffOptions) : Bool :=
  if o.ignore_manifest_subsections then true
  else if o.ignore_manifest_key ≠ ∅ then
    decide (changedKeys l r ⊆ o.ignore_manifest_key)
  else false

/-- `ManifestMainChange.is_ignored` (`manifest.py` lines 151-160). -/
def mainChange_is_ignored (l r : Sect) (o : DiffOptions) : Bool :=
  if o.ignore_manifest_key ≠ ∅ then
    decide (changedKeys l r ⊆ o.ignore_manifest_key)
  else false

/-- `ManifestSectionAdded.is_ignored` (`manifest.py` lines 123-124). -/
def sectionAdded_is_ignored (o : DiffOptions) : Bool :=
  o.ignore_manifest_subsections

/-- `ManifestSectionRemoved.is_ignored` (`manifest.py` lines 135-136). -/
def sectionRemoved_is_ignored (o : DiffOptions) : Bool :=
  o.ignore_manifest_subsections

/-- C9: a sub-section "changed" record is ignored iff the
ignore-all-sub-sections flag is set or the configured key set is non-empty
and every key in the symmetric difference belongs to it; the main-section
"changed" record uses only the key-based rule; added/removed records are
ignored exactly when the flag is set; and the flag unconditionally ignores
every sub-section record kind. -/
theorem C9_is_ignored_semantics (l r : Sect) (o : DiffOptions) :
    (sectionChange_is_ignored l r o = true ↔
      o.ignore_manifest_subsections = true ∨
        (o.ignore_manifest_key ≠ ∅ ∧ changedKeys l r ⊆ o.ignore_manifest_key)) ∧
    (mainChange_is_ignored l r o = true ↔
      o.ignore_manifest_key ≠ ∅ ∧ changedKeys l r ⊆ o.ignore_manifest_key) ∧
    (sectionAdded_is_ignored o = true ↔ o.ignore_manifest_subsections = true) ∧
    (sectionRemoved_is_ignored o = true ↔ o.ignore_manifest_subsections = true) ∧
    (o.ignore_manifest_subsections = true →
      sectionChange_is_ignored l r o = true ∧
      sectionAdded_is_ignored o = true ∧
      sectionRemoved_is_ignored o = true) := by
  refine ⟨?_, ?_, ?_, ?_, ?_⟩
  · by_cases hf : o.ignore_manifest_subsections
    · simp [sectionChange_is_ignored, hf]
    · by_cases hk : o.ignore_manifest_key ≠ ∅
      · simp [sectionChange_is_ignored, hf, hk]
      · simp [sectionChange_is_ignored, hf, hk]
  · by_cases hk : o.ignore_manifest_key ≠ ∅
    · simp [mainChange_is_ignored, hk]
    · simp [mainChange_is_ignored, hk]
  · simp [sectionAdded_is_ignored]
  · simp [sectionRemoved_is_ignored]
  · intro hf
    simp [sectionChange_is_ignored, sectionAdded_is_ignored,
      sectionRemoved_is_ignored, hf]

/-- The item-writing part of `ManifestSection.store` (`manifest.py` lines
224-231): `write_key_val` for each pair in order. -/
def section_store_items (s : Sect) (ls : Option PStr) : Except PyExc PStr :=
  match s with
  | [] => .ok []
  | kv :: rest =>
    match write_key_val kv.1 kv.2 ls with
    | .error e => .error e
    | .ok w =>
      match section_store_items rest ls with
      | .error e => .error e
      | .ok r => .ok (w ++ r)

/-- `ManifestSection.store` / `get_data`: all key/value pairs followed by
the terminating blank line `stream.write(linesep)` (which raises
`TypeError` when the separator is `None`). -/
def section_store (s : Sect) (ls : Option PStr) : Except PyExc PStr :=
  match section_store_items s ls with
  | .error e => .error e
  | .ok body =>
    match ls with
    | none => .error .typeError
    | some sep => .ok (body ++ sep)

/-- The `Manifest` object: ordered main attributes, the ordered
`sub_sections` dict (keyed by the Python value of each section's primary
attribute, which is `None` when absent), and the configured line
separator. -/
structure Manifest where
  main : Sect
  sub_sections : List (Option PStr × Sect)
  linesep : Option PStr

/-- Python's `a or b` on an optional byte string: the empty string and
`None` are falsy. -/
def pyOrSep : Option PStr → Option PStr → Option PStr
  | none, b => b
  | some s, b => if s = [] then b else some s

/-- The separator `linesep or self.linesep or os.linesep` computed by
`Manifest.store` and, for the sub-sections only, by
`SignatureManifest.digest_manifest`. -/
def effSep (linesep selfSep : Option PStr) (osSep : PStr) : PStr :=
  (pyOrSep (pyOrSep linesep selfSep) (some osSep)).getD osSep

/-- `Manifest.get_main_section` (`manifest.py` lines 331-334): note that
it serializes with `self.linesep` as-is, not with an effective
separator. -/
def Manifest.get_main_section (m : Manifest) : Except PyExc PStr :=
  section_store m.main m.linesep

/-- Python 2 byte-string comparison (lexicographic). -/
def lexCmp : PStr → PStr → Ordering
  | [], [] => .eq
  | [], _ :: _ => .lt
  | _ :: _, [] => .gt
  | a :: xs, b :: ys => (compare a b).then (lexCmp xs ys)

/-- CPython 2's `characterize(a, b)`: the smallest key of `a` at which `b`
is missing the key or maps it to a different value, together with `a`'s
value there. -/
def characterize (a b : Sect) : Option (PStr × PStr) :=
  a.foldl
    (fun best kv =>
      if odLookup b kv.1 = some kv.2 then best
      else
        match best with
        | none => some kv
        | some bk => if lexCmp kv.1 bk.1 = .lt then some kv else best)
    none

/-- CPython 2's `dict_compare`: by size first, then by the smallest
differing key and the values at it.  This is the "natural ordering" that
`sorted(self.sub_sections.values())` sorts the section dictionaries
with. -/
def dict_compare (a b : Sect) : Ordering :=
  if a.length < b.length then .lt
  else if b.length < a.length then .gt
  else
    match characterize a b with
    | none => .eq
    | some ak =>
      match characterize b a with
      | none => .eq
      | some bk => (lexCmp ak.1 bk.1).then (lexCmp ak.2 bk.2)

/-- Stable insertion of a section into an already-sorted list: the new
element goes after every existing element that is not greater. -/
def pyInsert (x : Sect) : List Sect → List Sect
  | [] => [x]
  | y :: ys => if dict_compare y x = .gt then x :: y :: ys else y :: pyInsert x ys

/-- `sorted(...)`: a stable sort of the section values under
`dict_compare`. -/
def pySorted (l : List Sect) : List Sect :=
  l.foldl (fun acc x => pyInsert x acc) []

/-- Serialization of a list of sections in order, as the sub-section loop
of `Manifest.store` performs it. -/
def storeAll (ss : List Sect) (ls : Option PStr) : Except PyExc (List PStr) :=
  match ss with
  | [] => .ok []
  | s :: rest =>
    match section_store s ls with
    | .error e => .error e
    | .ok d =>
      match storeAll rest ls with
      | .error e => .error e
      | .ok ds => .ok (d :: ds)

/-- `Manifest.store` (`manifest.py` lines 317-328): main section first,
then the sub-section values sorted by their natural (dict) ordering. -/
def Manifest.store (m : Manifest) (linesep : Option PStr) (osSep : PStr) :
    Except PyExc PStr :=
  match section_store m.main (some (effSep linesep m.linesep osSep)) with
  | .error e => .error e
  | .ok mainOut =>
    match storeAll (pySorted (m.sub_sections.map Prod.snd))
        (some (effSep linesep m.linesep osSep)) with
    | .error e => .error e
    | .ok subs => .ok (mainOut ++ subs.flatten)

/-- `ManifestSection.load` (`manifest.py` lines 219-221): assign, in
order, each key to the concatenation of its value fragments. -/
def load (s : Sect) (items : List KVF) : Except PyExc Sect :=
  match items with
  | [] => .ok s
  | (k, vals) :: rest =>
    match setitem s k vals.flatten with
    | .error e => .error e
    | .ok s' => load s' rest

/-- The sub-section loop of `Manifest.parse` (`manifest.py` lines
310-314): each further tokenized section is loaded into a fresh
`ManifestSection(None)` (whose `Name` is pre-set to the string `"None"` by
`__setitem__`'s `str` coercion) and registered in `sub_sections` under its
primary value. -/
def parseSubsLoop (secs : List (List KVF)) (subs : List (Option PStr × Sect)) :
    Except PyExc (List (Option PStr × Sect)) :=
  match secs with
  | [] => .ok subs
  | items :: rest =>
    match load [("Name".toList, "None".toList)] items with
    | .error e => .error e
    | .ok ns => parseSubsLoop rest (odInsert subs (odLookup ns "Name".toList) ns)

/-- `Manifest.parse` (`manifest.py` lines 300-314): the first tokenized
section is loaded as the main attributes — `sections.next()` raises
`StopIteration` when the tokenizer yields no section at all — and the
remaining sections become sub-sections.  (The tokenizer generator is
modelled eagerly; its exceptions are all preserved.) -/
def Manifest.parse (self : Manifest) (data : PStr) : Except PyExc Manifest :=
  match parse_sections data with
  | .error e => .error e
  | .ok [] => .error .stopIteration
  | .ok (s0 :: rest) =>
    match load self.main s0 with
    | .error e => .error e
    | .ok main' =>
      match parseSubsLoop rest self.sub_sections with
      | .error e => .error e
      | .ok subs' => .ok { self with main := main', sub_sections := subs' }

/-- `Manifest(version="1.0", linesep=None)`: the freshly constructed
manifest that `cli_query`/`cli_sign` feed to `parse`. -/
def freshManifest : Manifest :=
  ⟨[("Manifest-Version".toList, "1.0".toList)], [], none⟩

/-- `str(name)` for the optional primary value (`str(None)` is the string
`"None"`). -/
def pyStr : Option PStr → PStr
  | none => "None".toList
  | some s => s

/-- The sub-section loop of `SignatureManifest.digest_manifest`
(`manifest.py` lines 397-408).  A `hashlib` object is modelled by the
bytes fed to it so far, so the running total `hAll` is extended with each
sub-section's serialized bytes, while each sub-section's own digest hashes
only its bytes.  `create_section` makes a fresh section whose `Name` is
the source section's primary value and registers it under that value. -/
def digestLoop (H b64 : PStr → PStr) (sect_key : PStr) (linesep : PStr)
    (subs : List (Option PStr × Sect)) (self : Manifest) (hAll : PStr) :
    Except PyExc (Manifest × PStr) :=
  match subs with
  | [] => .ok (self, hAll)
  | (_, sub) :: rest =>
    match section_store sub (some linesep) with
    | .error e => .error e
    | .ok sub_data =>
      match setitem [("Name".toList, pyStr (odLookup sub "Name".toList))]
          sect_key (b64 (H sub_data)) with
      | .error e => .error e
      | .ok sect1 =>
        digestLoop H b64 sect_key linesep rest
          { self with
            sub_sections :=
              odInsert self.sub_sections (odLookup sub "Name".toList) sect1 }
          (hAll ++ sub_data)

/-- `SignatureManifest.digest_manifest` (`manifest.py` lines 370-412).
`H` abstracts the selected `hashlib` algorithm's compression (digest of a
byte string), `b64` abstracts `b64encode`.  The sub-sections are
serialized with `manifest.linesep or os.linesep`, but the main section is
serialized by `get_main_section` with `manifest.linesep` as-is. -/
def digest_manifest (H b64 : PStr → PStr) (self manifest : Manifest)
    (osSep : PStr) (alg : PStr) : Except PyExc Manifest :=
  match Manifest.get_main_section manifest with
  | .error e => .error e
  | .ok mainBytes =>
    match setitem self.main (alg ++ "-Digest-Manifest-Main-Attributes".toList)
        (b64 (H mainBytes)) with
    | .error e => .error e
    | .ok m1 =>
      match digestLoop H b64 (alg ++ "-Digest".toList)
          (effSep none manifest.linesep osSep) manifest.sub_sections
          { self with main := m1 } mainBytes with
      | .error e => .error e
      | .ok (self2, hAll) =>
        match setitem self2.main (alg ++ "-Digest-Manifest".toList)
            (b64 (H hAll)) with
        | .error e => .error e
        | .ok m2 => .ok { self2 with main := m2 }

/-- `SignatureManifest()`: fresh signature manifest
(primary key `Signature-Version`). -/
def freshSignatureManifest : Manifest :=
  ⟨[("Signature-Version".toList, "1.0".toList)], [], none⟩

/-- C7 (code bug): `digest_manifest` computes the effective separator
`manifest.linesep or os.linesep` (and its own comment says it wants the
OS default when none is configured), but `get_main_section` serializes
the main section with `self.linesep` as-is: with no configured separator
the main-section serialization writes `None` to the stream and raises
`TypeError`, instead of succeeding with the platform default — with which
serialization would have succeeded, as the last conjunct shows. -/
theorem C7_digest_without_linesep_raises :
    Manifest.get_main_section freshManifest = .error .typeError ∧
    digest_manifest id id freshSignatureManifest freshManifest ['\n']
      "SHA-256".toList = .error .typeError ∧
    section_store freshManifest.main
      (some (effSep none freshManifest.linesep ['\n'])) =
      .ok "Manifest-Version: 1.0\n\n".toList := by
  exact ⟨rfl, rfl, rfl⟩

theorem splitGo_mem_ne_nil (s : PStr) :
    ∀ rev l, l ∈ splitGo s rev → l ≠ [] := by
  induction s with
  | nil =>
    intro rev l hl
    simp only [splitGo] at hl
    by_cases hr : rev = []
    · simp [hr] at hl
    · rw [if_neg hr] at hl
      rw [List.mem_singleton] at hl
      subst hl
      simpa using hr
  | cons c rest ih =>
    intro rev l hl
    simp only [splitGo] at hl
    by_cases hc : c = '\n'
    · rw [if_pos hc] at hl
      rcases List.mem_cons.mp hl with rfl | hl
      · simp
      · exact ih [] l hl
    · rw [if_neg hc] at hl
      exact ih (c :: rev) l hl

theorem cleanline_blank (line : PStr) (hne : line ≠ [])
    (hb : ∀ c ∈ line, c = '\r' ∨ c = '\n') : cleanline line = .ok [] := by
  have hfilter : line.filter (fun c => c != '\x00') = line := by
    apply List.filter_eq_self.mpr
    intro c hc
    rcases hb c hc with rfl | rfl <;> decide
  simp only [cleanline, hfilter, if_neg hne]
  congr 1
  cases line with
  | nil => rfl
  | cons c cs =>
    have : (c != '\r' && c != '\n') = false := by
      rcases hb c (by simp) with rfl | rfl <;> decide
    simp [List.takeWhile, this]

/-- C10: for every input containing no non-blank line (every physical line
consists only of line-terminator characters, the empty input included),
`Manifest.parse` raises `StopIteration`: the tokenizer yields no section
and the parser unconditionally consumes a first section as the main
attributes. -/
theorem C10_parse_empty_stopiteration (self : Manifest) (data : PStr)
    (hblank : ∀ line ∈ pySplitLines data, ∀ c ∈ line, c = '\r' ∨ c = '\n') :
    Manifest.parse self data = .error .stopIteration := by
  by_cases hd : data = []
  · subst hd
    rfl
  · have hsec : parse_sections data = .ok [] := by
      simp only [parse_sections, if_neg hd]
      have hall := psLoop_blanks (pySplitLines data) [] 0 []
        (fun p hp =>
          cleanline_blank p (splitGo_mem_ne_nil data [] p hp) (hblank p hp))
      rw [List.append_nil] at hall
      rw [hall]
      rfl
    simp [Manifest.parse, hsec]

theorem C10_parse_empty_stopiteration_witness :
    Manifest.parse freshManifest "\n\r\n\n".toList = .error .stopIteration ∧
    Manifest.parse freshManifest [] = .error .stopIteration :=
  ⟨C10_parse_empty_stopiteration freshManifest "\n\r\n\n".toList (by decide),
   C10_parse_empty_stopiteration freshManifest [] (by decide)⟩

theorem pyInsert_perm (x : Sect) (ys : List Sect) :
    (pyInsert x ys).Perm (x :: ys) := by
  induction ys with
  | nil => rfl
  | cons y ys ih =>
    simp only [pyInsert]
    by_cases hc : dict_compare y x = .gt
    · rw [if_pos hc]
    · rw [if_neg hc]
      exact (ih.cons y).trans (List.Perm.swap x y ys)

theorem pySorted_foldl_perm (l : List Sect) :
    ∀ acc, (List.foldl (fun a x => pyInsert x a) acc l).Perm (acc ++ l) := by
  induction l with
  | nil => intro acc; simp
  | cons x xs ih =>
    intro acc
    simp only [List.foldl_cons]
    refine (ih (pyInsert x acc)).trans ?_
    refine (List.Perm.append_right xs (pyInsert_perm x acc)).trans ?_
    exact List.perm_middle.symm

theorem pySorted_perm (l : List Sect) : (pySorted l).Perm l := by
  simpa using pySorted_foldl_perm l []

theorem storeAll_forall2 (ss : List Sect) (ls : Option PStr) (ds : List PStr)
    (h : storeAll ss ls = .ok ds) :
    List.Forall₂ (fun s d => section_store s ls = .ok d) ss ds := by
  induction ss generalizing ds with
  | nil =>
    simp only [storeAll] at h
    injection h with h
    subst h
    constructor
  | cons s rest ih =>
    simp only [storeAll] at h
    cases hs : section_store s ls with
    | error e => rw [hs] at h; exact Except.noConfusion h
    | ok d =>
      rw [hs] at h
      cases hr : storeAll rest ls with
      | error e => rw [hr] at h; exact Except.noConfusion h
      | ok ds' =>
        rw [hr] at h
        injection h with h
        subst h
        exact List.Forall₂.cons hs (ih ds' hr)

/-- A manifest whose sub-sections sort differently by dict ordering than
by name: section `"b"` has a single attribute, section `"a"` has two, so
`sorted` puts `"b"` (the smaller dict) first. -/
def mEx : Manifest :=
  ⟨[("Manifest-Version".toList, "1.0".toList)],
   [(some "b".toList, [("Name".toList, "b".toList)]),
    (some "a".toList,
      [("Name".toList, "a".toList), ("X".toList, "1".toList)])],
   none⟩

/-- C8 counterexample: `store` emits sub-section `"b"` before sub-section
`"a"`, because Python 2 compares the section dictionaries by size first;
sorting by sub-section name would emit `"a"` first. -/
theorem C8_counterexample_not_name_order :
    Manifest.store mEx none ['\n'] =
      .ok "Manifest-Version: 1.0\n\nName: b\n\nName: a\nX: 1\n\n".toList ∧
    Manifest.store mEx none ['\n'] ≠
      .ok "Manifest-Version: 1.0\n\nName: a\nX: 1\n\nName: b\n\n".toList := by
  constructor
  · rfl
  · decide

/-- C8 (amended): `store` writes the main attribute section first and then
every sub-section exactly once (the sorted list is a permutation of the
manifest's sub-section values), in the order given by sorting the section
dictionaries by their natural Python 2 ordering — size first, then
smallest differing key and its values (`dict_compare`) — which is not in
general the order of sub-section names. -/
theorem C8_store_main_first_each_once (m : Manifest) (osSep : PStr)
    (out : PStr) (h : Manifest.store m none osSep = .ok out) :
    ∃ mainOut ds,
      section_store m.main (some (effSep none m.linesep osSep)) = .ok mainOut ∧
      List.Forall₂
        (fun s d => section_store s (some (effSep none m.linesep osSep)) = .ok d)
        (pySorted (m.sub_sections.map Prod.snd)) ds ∧
      out = mainOut ++ ds.flatten ∧
      (pySorted (m.sub_sections.map Prod.snd)).Perm
        (m.sub_sections.map Prod.snd) := by
  simp only [Manifest.store] at h
  cases hm : section_store m.main (some (effSep none m.linesep osSep)) with
  | error e => rw [hm] at h; exact Except.noConfusion h
  | ok mainOut =>
    rw [hm] at h
    cases hs : storeAll (pySorted (m.sub_sections.map Prod.snd))
        (some (effSep none m.linesep osSep)) with
    | error e => rw [hs] at h; exact Except.noConfusion h
    | ok ds =>
      rw [hs] at h
      injection h with h
      exact ⟨mainOut, ds, rfl, storeAll_forall2 _ _ ds hs, h.symm,
        pySorted_perm _⟩

theorem C8_store_main_first_each_once_witness :
    ∃ mainOut ds,
      section_store mEx.main (some (effSep none mEx.linesep ['\n'])) =
        .ok mainOut ∧
      List.Forall₂
        (fun s d => section_store s (some (effSep none mEx.linesep ['\n'])) = .ok d)
        (pySorted (mEx.sub_sections.map Prod.snd)) ds ∧
      "Manifest-Version: 1.0\n\nName: b\n\nName: a\nX: 1\n\n".toList =
        mainOut ++ ds.flatten ∧
      (pySorted (mEx.sub_sections.map Prod.snd)).Perm
        (mEx.sub_sections.map Prod.snd) :=
  C8_store_main_first_each_once mEx ['\n']
    "Manifest-Version: 1.0\n\nName: b\n\nName: a\nX: 1\n\n".toList rfl

theorem odLookup_odInsert_self {κ ν : Type} [DecidableEq κ]
    (s : List (κ × ν)) (k : κ) (v : ν) :
    odLookup (odInsert s k v) k = some v := by
  induction s with
  | nil => simp [odInsert, odLookup]
  | cons kv rest ih =>
    simp only [odInsert]
    by_cases hk : kv.1 = k
    · rw [if_pos hk]
      simp [odLookup]
    · rw [if_neg hk]
      simp only [odLookup, if_neg hk]
      exact ih

theorem odLookup_odInsert_ne {κ ν : Type} [DecidableEq κ]
    (s : List (κ × ν)) (k k' : κ) (v : ν) (hne : k' ≠ k) :
    odLookup (odInsert s k v) k' = odLookup s k' := by
  induction s with
  | nil =>
    simp only [odInsert, odLookup]
    rw [if_neg (fun h : k = k' => hne h.symm)]
  | cons kv rest ih =>
    simp only [odInsert]
    by_cases hk : kv.1 = k
    · rw [if_pos hk]
      simp only [odLookup, hk]
      rw [if_neg (fun h : k = k' => hne h.symm), if_neg (fun h : k = k' => hne h.symm)]
    · rw [if_neg hk]
      simp only [odLookup]
      by_cases hk' : kv.1 = k'
      · rw [if_pos hk', if_pos hk']
      · rw [if_neg hk', if_neg hk']
        exact ih

theorem setitem_ok (s : Sect) (k v : PStr) (s' : Sect)
    (h : setitem s k v = .ok s') : s' = odInsert s k v := by
  by_cases hk : k.length > 68
  · simp only [setitem, if_pos hk] at h
    exact Except.noConfusion h
  · simp only [setitem, if_neg hk] at h
    injection h with h
    exact h.symm

theorem digestLoop_spec (H b64 : PStr → PStr) (sk : PStr) (ls : PStr)
    (subs : List (Option PStr × Sect)) :
    ∀ (self : Manifest) (hAll : PStr) (sds : List PStr)
      (self' : Manifest) (hAll' : PStr),
    storeAll (subs.map Prod.snd) (some ls) = .ok sds →
    digestLoop H b64 sk ls subs self hAll = .ok (self', hAll') →
    hAll' = hAll ++ sds.flatten ∧
    self'.main = self.main ∧
    (∀ key, key ∉ subs.map (fun p => odLookup p.2 "Name".toList) →
      odLookup self'.sub_sections key = odLookup self.sub_sections key) ∧
    ((subs.map (fun p => odLookup p.2 "Name".toList)).Nodup →
      List.Forall₂
        (fun p sd => ∃ sect,
          odLookup self'.sub_sections (odLookup p.2 "Name".toList) = some sect ∧
          odLookup sect sk = some (b64 (H sd)))
        subs sds) := by
  induction subs with
  | nil =>
    intro self hAll sds self' hAll' hst hrun
    simp only [List.map_nil, storeAll] at hst
    injection hst with hst
    subst hst
    simp only [digestLoop] at hrun
    injection hrun with hrun
    injection hrun with h1 h2
    subst h1
    subst h2
    refine ⟨by simp, rfl, fun key _ => rfl, fun _ => List.Forall₂.nil⟩
  | cons p rest ih =>
    intro self hAll sds self' hAll' hst hrun
    obtain ⟨n?, sub⟩ := p
    simp only [List.map_cons, storeAll] at hst
    cases hs : section_store sub (some ls) with
    | error e => rw [hs] at hst; exact Except.noConfusion hst
    | ok sd =>
      rw [hs] at hst
      cases hrest : storeAll (rest.map Prod.snd) (some ls) with
      | error e => rw [hrest] at hst; exact Except.noConfusion hst
      | ok sds' =>
        rw [hrest] at hst
        injection hst with hst
        subst hst
        simp only [digestLoop, hs] at hrun
        cases hset : setitem [("Name".toList, pyStr (odLookup sub "Name".toList))]
            sk (b64 (H sd)) with
        | error e => rw [hset] at hrun; exact Except.noConfusion hrun
        | ok sect1 =>
          rw [hset] at hrun
          have hsect1 := setitem_ok _ _ _ _ hset
          obtain ⟨ih1, ih2, ih3, ih4⟩ := ih _ _ _ _ _ hrest hrun
          refine ⟨by simp [ih1], ih2, ?_, ?_⟩
          · intro key hkey
            simp only [List.map_cons, List.mem_cons, not_or] at hkey
            rw [ih3 key hkey.2]
            exact odLookup_odInsert_ne _ _ _ _ hkey.1
          · intro hnodup
            simp only [List.map_cons, List.nodup_cons] at hnodup
            refine List.Forall₂.cons ⟨sect1, ?_, ?_⟩ (ih4 hnodup.2)
            · rw [ih3 _ hnodup.1]
              exact odLookup_odInsert_self _ _ _
            · rw [hsect1]
              exact odLookup_odInsert_self _ _ _

/-- C1: on a successful run of `digest_manifest`, the
`<ALG>-Digest-Manifest` attribute is `b64` of the hash of the single
concatenated stream (main-section bytes followed by each sub-section's
bytes in iteration order, one hash instance fed sequentially), the
`<ALG>-Digest-Manifest-Main-Attributes` attribute is `b64` of the hash of
the main-section bytes alone (the state snapshotted before any sub-section
bytes are fed), and each signature sub-section's `<ALG>-Digest` is `b64`
of the hash of that sub-section's bytes alone. -/
theorem C1_digest_manifest_values (H b64 : PStr → PStr) (sf m : Manifest)
    (osSep alg : PStr) (sf' : Manifest) (mainBytes : PStr) (sds : List PStr)
    (hrun : digest_manifest H b64 sf m osSep alg = .ok sf')
    (hmain : Manifest.get_main_section m = .ok mainBytes)
    (hsds : storeAll (m.sub_sections.map Prod.snd)
      (some (effSep none m.linesep osSep)) = .ok sds)
    (hnames : (m.sub_sections.map (fun p => odLookup p.2 "Name".toList)).Nodup) :
    odLookup sf'.main (alg ++ "-Digest-Manifest".toList) =
      some (b64 (H (mainBytes ++ sds.flatten))) ∧
    odLookup sf'.main (alg ++ "-Digest-Manifest-Main-Attributes".toList) =
      some (b64 (H mainBytes)) ∧
    List.Forall₂
      (fun p sd => ∃ sect,
        odLookup sf'.sub_sections (odLookup p.2 "Name".toList) = some sect ∧
        odLookup sect (alg ++ "-Digest".toList) = some (b64 (H sd)))
      m.sub_sections sds := by
  have hkeyne : alg ++ "-Digest-Manifest-Main-Attributes".toList ≠
      alg ++ "-Digest-Manifest".toList := by
    intro hcontra
    have := List.append_cancel_left hcontra
    exact absurd this (by decide)
  simp only [digest_manifest, hmain] at hrun
  cases hset1 : setitem sf.main (alg ++ "-Digest-Manifest-Main-Attributes".toList)
      (b64 (H mainBytes)) with
  | error e =>
    simp only [hset1] at hrun
    exact Except.noConfusion hrun
  | ok m1 =>
    simp only [hset1] at hrun
    have hm1 := setitem_ok _ _ _ _ hset1
    cases hloop : digestLoop H b64 (alg ++ "-Digest".toList)
        (effSep none m.linesep osSep) m.sub_sections
        { sf with main := m1 } mainBytes with
    | error e =>
      simp only [hloop] at hrun
      exact Except.noConfusion hrun
    | ok res =>
      simp only [hloop] at hrun
      obtain ⟨self2, hAll⟩ := res
      obtain ⟨hl1, hl2, _hl3, hl4⟩ :=
        digestLoop_spec H b64 (alg ++ "-Digest".toList)
          (effSep none m.linesep osSep) m.sub_sections
          { sf with main := m1 } mainBytes sds self2 hAll hsds hloop
      cases hset2 : setitem self2.main (alg ++ "-Digest-Manifest".toList)
          (b64 (H hAll)) with
      | error e =>
        simp only [hset2] at hrun
        exact Except.noConfusion hrun
      | ok m2 =>
        simp only [hset2] at hrun
        have hm2 := setitem_ok _ _ _ _ hset2
        injection hrun with hrun
        subst hrun
        refine ⟨?_, ?_, ?_⟩
        · show odLookup m2 (alg ++ "-Digest-Manifest".toList) = _
          rw [hm2, hl1, odLookup_odInsert_self]
        · show odLookup m2 (alg ++ "-Digest-Manifest-Main-Attributes".toList) = _
          rw [hm2, odLookup_odInsert_ne _ _ _ _ hkeyne, hl2]
          show odLookup m1 _ = _
          rw [hm1, odLookup_odInsert_self]
        · exact hl4 hnames

/-- A one-sub-section manifest with a configured separator, used to
instantiate `C1_digest_manifest_values` concretely. -/
def mDig : Manifest :=
  ⟨[("Manifest-Version".toList, "1.0".toList)],
   [(some "a".toList, [("Name".toList, "a".toList)])],
   some ['\n']⟩

theorem C1_digest_manifest_values_witness :
    ∃ sf' : Manifest,
      digest_manifest id id freshSignatureManifest mDig ['\n']
        "SHA-256".toList = .ok sf' ∧
      (odLookup sf'.main ("SHA-256".toList ++ "-Digest-Manifest".toList) =
        some (id (id ("Manifest-Version: 1.0\n\n".toList ++
          ["Name: a\n\n".toList].flatten))) ∧
      odLookup sf'.main
          ("SHA-256".toList ++ "-Digest-Manifest-Main-Attributes".toList) =
        some (id (id "Manifest-Version: 1.0\n\n".toList)) ∧
      List.Forall₂
        (fun p sd => ∃ sect,
          odLookup sf'.sub_sections (odLookup p.2 "Name".toList) = some sect ∧
          odLookup sect ("SHA-256".toList ++ "-Digest".toList) =
            some (id (id sd)))
        mDig.sub_sections ["Name: a\n\n".toList]) := by
  refine ⟨_, rfl, ?_⟩
  exact C1_digest_manifest_values id id freshSignatureManifest mDig ['\n']
    "SHA-256".toList _ "Manifest-Version: 1.0\n\n".toList
    ["Name: a\n\n".toList] rfl rfl rfl (by decide)

/-- A key/value pair that serializes to a single line and survives the
round trip: non-empty key of at most 68 characters not starting with a
space and containing no colon, NUL or line terminator; a value with no
NUL or line terminator; and a combined length needing no folding. -/
abbrev goodKV (kv : PStr × PStr) : Prop :=
  kv.1 ≠ [] ∧ kv.1.length ≤ 68 ∧ kv.1.length + kv.2.length ≤ 68 ∧
  kv.1.head? ≠ some ' ' ∧
  (∀ c ∈ kv.1, c ≠ ':' ∧ c ≠ '\r' ∧ c ≠ '\n' ∧ c ≠ '\x00') ∧
  (∀ c ∈ kv.2, c ≠ '\r' ∧ c ≠ '\n' ∧ c ≠ '\x00')

/-- A section that survives the round trip: non-empty, with distinct keys,
all pairs `goodKV`. -/
abbrev goodSect (s : Sect) : Prop :=
  s ≠ [] ∧ (s.map Prod.fst).Nodup ∧ ∀ kv ∈ s, goodKV kv

/-- The bytes `ManifestSection.store` writes for a section needing no
folding: one `key: value` line per pair, then the blank separator line. -/
def sectBytes (s : Sect) (sep : PStr) : PStr :=
  (s.map (fun kv => kv.1 ++ ':' :: ' ' :: kv.2 ++ sep)).flatten ++ sep

theorem section_store_items_good (sep : PStr) :
    ∀ s : Sect, (∀ kv ∈ s, goodKV kv) →
    section_store_items s (some sep) =
      .ok (s.map (fun kv => kv.1 ++ ':' :: ' ' :: kv.2 ++ sep)).flatten := by
  intro s
  induction s with
  | nil => intro _; rfl
  | cons kv rest ih =>
    intro hgood
    obtain ⟨hk0, hk68, hkv68, _, _, _⟩ := hgood kv (by simp)
    have hwkv : write_key_val kv.1 kv.2 (some sep) =
        .ok (kv.1 ++ ':' :: ' ' :: kv.2 ++ sep) := by
      simp only [write_key_val]
      rw [if_neg (not_not_intro
        ⟨List.length_pos.mpr hk0, by omega⟩)]
      rw [if_neg (by omega)]
    simp only [section_store_items, hwkv,
      ih (fun p hp => hgood p (by simp [hp]))]
    simp

theorem section_store_good (s : Sect) (sep : PStr)
    (hgood : ∀ kv ∈ s, goodKV kv) :
    section_store s (some sep) = .ok (sectBytes s sep) := by
  simp only [section_store, section_store_items_good sep s hgood, sectBytes]

theorem storeAll_good (sep : PStr) :
    ∀ ss : List Sect, (∀ s ∈ ss, ∀ kv ∈ s, goodKV kv) →
    storeAll ss (some sep) = .ok (ss.map (sectBytes · sep)) := by
  intro ss
  induction ss with
  | nil => intro _; rfl
  | cons s rest ih =>
    intro hgood
    simp only [storeAll, section_store_good s sep (hgood s (by simp)),
      ih (fun t ht => hgood t (by simp [ht]))]
    simp

theorem effSep_newline (selfSep : Option PStr) (osSep : PStr) :
    effSep (some ['\n']) selfSep osSep = ['\n'] := by
  simp [effSep, pyOrSep]

theorem takeWhile_append_all {p : Char → Bool} :
    ∀ (l₁ l₂ : PStr), (∀ c ∈ l₁, p c = true) →
    List.takeWhile p (l₁ ++ l₂) = l₁ ++ List.takeWhile p l₂ := by
  intro l₁
  induction l₁ with
  | nil => intro l₂ _; rfl
  | cons c cs ih =>
    intro l₂ hall
    simp only [List.cons_append, List.takeWhile_cons, hall c (by simp)]
    rw [ih l₂ (fun d hd => hall d (by simp [hd]))]
    simp

theorem splitGo_newline_line :
    ∀ (line b rev : PStr), (∀ c ∈ line, c ≠ '\n') →
    splitGo (line ++ '\n' :: b) rev =
      ((rev.reverse ++ line) ++ ['\n']) :: splitGo b [] := by
  intro line
  induction line with
  | nil =>
    intro b rev _
    simp [splitGo]
  | cons c cs ih =>
    intro b rev hline
    simp only [List.cons_append, splitGo, if_neg (hline c (by simp))]
    simp only [List.append_eq]
    rw [ih b (c :: rev) (fun d hd => hline d (by simp [hd]))]
    simp

theorem pySplitLines_flatten :
    ∀ (lines : List PStr) (tailStr : PStr),
    (∀ l ∈ lines, ∃ body, l = body ++ ['\n'] ∧ ∀ c ∈ body, c ≠ '\n') →
    pySplitLines (lines.flatten ++ tailStr) = lines ++ pySplitLines tailStr := by
  intro lines
  induction lines with
  | nil => intro tailStr _; rfl
  | cons l ls ih =>
    intro tailStr hall
    obtain ⟨body, rfl, hbody⟩ := hall l (by simp)
    simp only [List.flatten_cons, pySplitLines]
    rw [List.append_assoc, List.append_assoc]
    rw [show ('\n' :: [] : PStr) ++ (ls.flatten ++ tailStr) =
      '\n' :: (ls.flatten ++ tailStr) from rfl]
    rw [splitGo_newline_line body (ls.flatten ++ tailStr) [] hbody]
    rw [show splitGo (ls.flatten ++ tailStr) [] =
      pySplitLines (ls.flatten ++ tailStr) from rfl]
    rw [ih tailStr (fun q hq => hall q (by simp [hq]))]
    simp [pySplitLines]

/-- The tokenized form of a section that needed no folding: each key with
a single value fragment. -/
def tokensOf (s : Sect) : List KVF := s.map (fun kv => (kv.1, [kv.2]))

/-- The physical lines of one serialized section (separator `"\n"`):
one `key: value` line per pair, then the blank line. -/
def sectLines (s : Sect) : List PStr :=
  s.map (fun kv => kv.1 ++ ':' :: ' ' :: kv.2 ++ ['\n']) ++ [['\n']]

theorem cleanline_kvline (k v : PStr) (hgood : goodKV (k, v)) :
    cleanline (k ++ ':' :: ' ' :: v ++ ['\n']) = .ok (k ++ ':' :: ' ' :: v) := by
  obtain ⟨hk0, _, _, _, hkchars, hvchars⟩ := hgood
  have hmem : ∀ c ∈ (k ++ ':' :: ' ' :: v ++ ['\n'] : PStr),
      c ∈ k ∨ c = ':' ∨ c = ' ' ∨ c ∈ v ∨ c = '\n' := by
    intro c hc
    simp only [List.mem_append, List.mem_cons, List.mem_singleton] at hc
    tauto
  have hfilter : (k ++ ':' :: ' ' :: v ++ ['\n']).filter (fun c => c != '\x00') =
      k ++ ':' :: ' ' :: v ++ ['\n'] := by
    apply List.filter_eq_self.mpr
    intro c hc
    rcases hmem c hc with hk | rfl | rfl | hv | rfl
    · simpa using (hkchars c hk).2.2.2
    · decide
    · decide
    · simpa using (hvchars c hv).2.2
    · decide
  have hne : (k ++ ':' :: ' ' :: v ++ ['\n'] : PStr) ≠ [] := by simp
  simp only [cleanline, hfilter, if_neg hne]
  have hassoc : (k ++ ':' :: ' ' :: v ++ ['\n'] : PStr) =
      (k ++ ':' :: ' ' :: v) ++ ['\n'] := by simp
  rw [hassoc, takeWhile_append_all (k ++ ':' :: ' ' :: v) ['\n'] ?_]
  · simp
  · intro c hc
    simp only [List.mem_append, List.mem_cons] at hc
    rcases hc with hk | rfl | rfl | hv
    · have := hkchars c hk
      simp [this.2.1, this.2.2.1]
    · decide
    · decide
    · have := hvchars c hv
      simp [this.1, this.2.1]

theorem psLoop_kvline (k v : PStr) (rest : List PStr) (n : Nat)
    (curr : Option (List KVF)) (acc : List (List KVF))
    (hgood : goodKV (k, v)) :
    psLoop ((k ++ ':' :: ' ' :: v ++ ['\n']) :: rest) n curr acc =
      psLoop rest (n + 1) (some (curr.getD [] ++ [(k, [v])])) acc := by
  have hcl := cleanline_kvline k v hgood
  obtain ⟨hk0, _, _, hkhead, hkchars, _⟩ := hgood
  have hclne : (k ++ ':' :: ' ' :: v : PStr) ≠ [] := by simp
  have hheadne : (k ++ ':' :: ' ' :: v : PStr).head? ≠ some ' ' := by
    cases k with
    | nil => exact absurd rfl hk0
    | cons c cs =>
      simp only [List.cons_append, List.head?_cons]
      simpa using hkhead
  have htake : (k ++ ':' :: ' ' :: v).takeWhile (fun c => c != ':') = k := by
    rw [takeWhile_append_all k (':' :: ' ' :: v)
      (fun c hc => by simpa using (hkchars c hc).1)]
    simp [List.takeWhile_cons]
  have hlen : (k ++ ':' :: ' ' :: v : PStr).length = k.length + v.length + 2 := by
    simp
    omega
  have hdrop : (k ++ ':' :: ' ' :: v : PStr).drop (k.length + 1) = ' ' :: v := by
    have h1 : (k ++ ':' :: ' ' :: v : PStr).drop k.length = ':' :: ' ' :: v :=
      List.drop_left k (':' :: ' ' :: v)
    have h2 : (k ++ ':' :: ' ' :: v : PStr).drop (k.length + 1) =
        ((k ++ ':' :: ' ' :: v : PStr).drop k.length).drop 1 := by
      rw [List.drop_drop, Nat.add_comm]
    rw [h2, h1]
    rfl
  simp only [psLoop, hcl]
  rw [if_neg hclne, if_neg hheadne, htake]
  rw [if_neg (by omega)]
  rw [hdrop]
  rfl

theorem psLoop_kvlines (s : Sect) :
    ∀ (rest : List PStr) (n : Nat) (curr : Option (List KVF))
      (acc : List (List KVF)), (∀ kv ∈ s, goodKV kv) →
    psLoop ((s.map (fun kv => kv.1 ++ ':' :: ' ' :: kv.2 ++ ['\n'])) ++ rest)
        n curr acc =
      psLoop rest (n + s.length)
        (match s with
         | [] => curr
         | _ => some (curr.getD [] ++ tokensOf s)) acc := by
  induction s with
  | nil =>
    intro rest n curr acc _
    simp
  | cons kv tail ih =>
    intro rest n curr acc hgood
    simp only [List.map_cons, List.cons_append]
    rw [psLoop_kvline kv.1 kv.2 _ n curr acc (hgood kv (by simp))]
    rw [ih rest (n + 1) (some (curr.getD [] ++ [(kv.1, [kv.2])])) acc
      (fun p hp => hgood p (by simp [hp]))]
    cases tail with
    | nil =>
      simp [tokensOf]
    | cons kv2 tail2 =>
      simp only [tokensOf, List.map_cons, Option.getD_some, List.length_cons]
      rw [List.append_assoc]
      congr 1
      omega

theorem psLoop_sectBlock (s : Sect) (rest : List PStr) (n : Nat)
    (acc : List (List KVF)) (hgood : goodSect s) :
    psLoop (sectLines s ++ rest) n none acc =
      psLoop rest (n + s.length + 1) none (acc ++ [tokensOf s]) := by
  obtain ⟨hne, _, hkvs⟩ := hgood
  have hrw : sectLines s ++ rest =
      (s.map (fun kv => kv.1 ++ ':' :: ' ' :: kv.2 ++ ['\n'])) ++
        (['\n'] :: rest) := by
    simp [sectLines]
  rw [hrw, psLoop_kvlines s (['\n'] :: rest) n none acc hkvs]
  cases s with
  | nil => exact absurd rfl hne
  | cons kv tail =>
    have hcurr : (none : Option (List KVF)).getD [] ++ tokensOf (kv :: tail) =
        (kv.1, [kv.2]) :: tokensOf tail := by
      simp [tokensOf]
    rw [hcurr]
    simp only [psLoop, show cleanline ['\n'] = Except.ok [] from rfl]
    simp [tokensOf]

theorem psLoop_blocks (ss : List Sect) :
    ∀ (n : Nat) (acc : List (List KVF)), (∀ s ∈ ss, goodSect s) →
    psLoop ((ss.map sectLines).flatten) n none acc =
      .ok (acc ++ ss.map tokensOf) := by
  induction ss with
  | nil =>
    intro n acc _
    simp [psLoop]
  | cons s rest ih =>
    intro n acc hgood
    simp only [List.map_cons, List.flatten_cons]
    rw [psLoop_sectBlock s ((rest.map sectLines).flatten) n acc
      (hgood s (by simp))]
    rw [ih (n + s.length + 1) (acc ++ [tokensOf s])
      (fun t ht => hgood t (by simp [ht]))]
    simp

theorem odInsert_append {κ ν : Type} [DecidableEq κ]
    (s : List (κ × ν)) (k : κ) (v : ν) (hk : k ∉ s.map Prod.fst) :
    odInsert s k v = s ++ [(k, v)] := by
  induction s with
  | nil => rfl
  | cons kv rest ih =>
    simp only [List.map_cons, List.mem_cons, not_or] at hk
    simp only [odInsert, if_neg (Ne.symm hk.1)]
    rw [ih hk.2]
    simp

theorem load_new_keys :
    ∀ (items : Sect) (s : Sect),
    (∀ kv ∈ items, kv.1.length ≤ 68 ∧ kv.1 ∉ s.map Prod.fst) →
    (items.map Prod.fst).Nodup →
    load s (tokensOf items) = .ok (s ++ items) := by
  intro items
  induction items with
  | nil =>
    intro s _ _
    simp [tokensOf, load]
  | cons kv rest ih =>
    intro s hkeys hnodup
    obtain ⟨hlen, hnotin⟩ := hkeys kv (by simp)
    simp only [List.map_cons, List.nodup_cons] at hnodup
    have hflat2 : ([kv.2] : List PStr).flatten = kv.2 := by simp
    simp only [tokensOf, List.map_cons, load, hflat2]
    simp only [show setitem s kv.1 kv.2 = .ok (odInsert s kv.1 kv.2) by
      simp [setitem, Nat.not_lt.mpr hlen]]
    rw [odInsert_append s kv.1 kv.2 hnotin]
    have hrest : ∀ p ∈ rest, p.1.length ≤ 68 ∧
        p.1 ∉ (s ++ [(kv.1, kv.2)]).map Prod.fst := by
      intro p hp
      obtain ⟨hl, hn⟩ := hkeys p (by simp [hp])
      refine ⟨hl, ?_⟩
      simp only [List.map_append, List.mem_append, List.map_cons,
        List.map_nil, List.mem_singleton, not_or]
      refine ⟨hn, ?_⟩
      intro hc
      exact hnodup.1 (hc ▸ List.mem_map_of_mem Prod.fst hp)
    have := ih (s ++ [(kv.1, kv.2)]) hrest hnodup.2
    simp only [tokensOf] at this
    rw [this]
    simp

theorem load_into_fresh (k0 w x : PStr) (rest : Sect)
    (hk0 : k0.length ≤ 68)
    (hrest : ∀ kv ∈ rest, kv.1.length ≤ 68 ∧ kv.1 ≠ k0)
    (hnodup : (rest.map Prod.fst).Nodup) :
    load [(k0, w)] (tokensOf ((k0, x) :: rest)) = .ok ((k0, x) :: rest) := by
  have hflat : ([x] : List PStr).flatten = x := by simp
  simp only [tokensOf, List.map_cons, load, hflat]
  simp only [show setitem [(k0, w)] k0 x = .ok [(k0, x)] by
    simp [setitem, Nat.not_lt.mpr hk0, odInsert]]
  have hkeys : ∀ kv ∈ rest, kv.1.length ≤ 68 ∧
      kv.1 ∉ ([(k0, x)] : Sect).map Prod.fst := by
    intro kv hkv
    obtain ⟨hl, hn⟩ := hrest kv hkv
    simp [hl, hn]
  have := load_new_keys rest [(k0, x)] hkeys hnodup
  simp only [tokensOf] at this
  rw [this]
  simp

theorem parseSubsLoop_sections :
    ∀ (ss : List Sect) (subs : List (Option PStr × Sect)),
    (∀ s ∈ ss, goodSect s ∧ ∃ nm restS, s = ("Name".toList, nm) :: restS) →
    ((ss.map (fun s => odLookup s "Name".toList)).Nodup) →
    (∀ s ∈ ss, odLookup s "Name".toList ∉ subs.map Prod.fst) →
    parseSubsLoop (ss.map tokensOf) subs =
      .ok (subs ++ ss.map (fun s => (odLookup s "Name".toList, s))) := by
  intro ss
  induction ss with
  | nil =>
    intro subs _ _ _
    simp [parseSubsLoop]
  | cons s rest ih =>
    intro subs hgood hnodup hnotin
    obtain ⟨⟨_, hsnodup, hskvs⟩, nm, restS, hshape⟩ := hgood s (by simp)
    subst hshape
    simp only [List.map_cons, List.nodup_cons] at hnodup
    have hload : load [("Name".toList, "None".toList)]
        (tokensOf (("Name".toList, nm) :: restS)) =
        .ok (("Name".toList, nm) :: restS) := by
      apply load_into_fresh
      · decide
      · intro kv hkv
        refine ⟨((hskvs kv (by simp [hkv])).2.1 : kv.1.length ≤ 68), ?_⟩
        simp only [List.map_cons, List.nodup_cons] at hsnodup
        intro hc
        exact hsnodup.1 (hc ▸ List.mem_map_of_mem Prod.fst hkv)
      · simp only [List.map_cons, List.nodup_cons] at hsnodup
        exact hsnodup.2
    simp only [List.map_cons, parseSubsLoop, hload]
    rw [odInsert_append subs _ _ (hnotin _ (by simp))]
    have hrest : ∀ t ∈ rest, odLookup t "Name".toList ∉
        ((subs ++ [(odLookup (("Name".toList, nm) :: restS) "Name".toList,
          ("Name".toList, nm) :: restS)]).map Prod.fst) := by
      intro t ht
      simp only [List.map_append, List.mem_append, List.map_cons,
        List.map_nil, List.mem_singleton, not_or]
      refine ⟨hnotin t (by simp [ht]), ?_⟩
      intro hc
      exact hnodup.1 (hc ▸ List.mem_map_of_mem _ ht)
    rw [ih _ (fun t ht => hgood t (by simp [ht])) hnodup.2 hrest]
    simp

theorem flatten_map_flatten (ls : List Sect) :
    ((ls.map sectLines).flatten).flatten =
      (ls.map (fun s => (sectLines s).flatten)).flatten := by
  induction ls with
  | nil => rfl
  | cons s rest ih => simp [ih]

theorem sectBytes_lines (s : Sect) :
    sectBytes s ['\n'] = (sectLines s).flatten := by
  simp [sectBytes, sectLines]

theorem sectLines_shape (s : Sect) (hgood : goodSect s) :
    ∀ l ∈ sectLines s, ∃ body, l = body ++ ['\n'] ∧ ∀ c ∈ body, c ≠ '\n' := by
  intro l hl
  simp only [sectLines, List.mem_append, List.mem_map,
    List.mem_singleton] at hl
  rcases hl with ⟨kv, hkv, rfl⟩ | rfl
  · refine ⟨kv.1 ++ ':' :: ' ' :: kv.2, by simp, ?_⟩
    intro c hc
    simp only [List.mem_append, List.mem_cons] at hc
    rcases hc with h | rfl | rfl | h
    · exact ((hgood.2.2 kv hkv).2.2.2.2.1 c h).2.2.1
    · decide
    · decide
    · exact ((hgood.2.2 kv hkv).2.2.2.2.2 c h).2.1
  · exact ⟨[], rfl, by simp⟩

/-- C6: a Manifest whose attributes need no folding survives the
serialize/parse round trip (serializing with the explicit separator
`"\n"`): parsing the stored bytes into a fresh `Manifest()` reproduces the
same ordered main attributes and the same sub-sections with the same
ordered attribute lists (as an unordered collection — `store` writes the
sub-sections in their sorted order). -/
theorem C6_store_parse_roundtrip (m : Manifest) (osSep : PStr)
    (hmain : goodSect m.main)
    (hmainhead : ∃ x restM, m.main = ("Manifest-Version".toList, x) :: restM)
    (hsubs : ∀ p ∈ m.sub_sections, goodSect p.2 ∧
      ∃ nm restS, p.2 = ("Name".toList, nm) :: restS ∧ p.1 = some nm)
    (hnames : (m.sub_sections.map Prod.fst).Nodup) :
    ∃ out m',
      Manifest.store m (some ['\n']) osSep = .ok out ∧
      Manifest.parse freshManifest out = .ok m' ∧
      m'.main = m.main ∧
      m'.sub_sections.Perm m.sub_sections ∧
      m'.linesep = none := by
  have hperm : (pySorted (m.sub_sections.map Prod.snd)).Perm
      (m.sub_sections.map Prod.snd) := pySorted_perm _
  have hsubsGood : ∀ s ∈ m.sub_sections.map Prod.snd, goodSect s ∧
      ∃ nm restS, s = ("Name".toList, nm) :: restS := by
    intro s hs
    obtain ⟨p, hp, rfl⟩ := List.mem_map.mp hs
    obtain ⟨g, nm, restS, he, _⟩ := hsubs p hp
    exact ⟨g, nm, restS, he⟩
  have hsorted : ∀ s ∈ pySorted (m.sub_sections.map Prod.snd), goodSect s ∧
      ∃ nm restS, s = ("Name".toList, nm) :: restS :=
    fun s hs => hsubsGood s (hperm.subset hs)
  have hallgood : ∀ s ∈ m.main :: pySorted (m.sub_sections.map Prod.snd),
      goodSect s := by
    intro s hs
    rcases List.mem_cons.mp hs with rfl | hs
    · exact hmain
    · exact (hsorted s hs).1
  -- the bytes that store writes
  have hstore : Manifest.store m (some ['\n']) osSep =
      .ok (sectBytes m.main ['\n'] ++
        ((pySorted (m.sub_sections.map Prod.snd)).map
          (fun s => sectBytes s ['\n'])).flatten) := by
    simp only [Manifest.store, effSep_newline,
      section_store_good m.main ['\n'] hmain.2.2,
      storeAll_good ['\n'] _ (fun s hs => ((hsorted s hs).1).2.2)]
  -- those bytes split into the expected physical lines
  have houtlines : sectBytes m.main ['\n'] ++
      ((pySorted (m.sub_sections.map Prod.snd)).map
        (fun s => sectBytes s ['\n'])).flatten =
      (((m.main :: pySorted (m.sub_sections.map Prod.snd)).map
        sectLines).flatten).flatten := by
    rw [sectBytes_lines]
    rw [List.map_congr_left
      (fun s _ => sectBytes_lines s :
        ∀ s ∈ pySorted (m.sub_sections.map Prod.snd), _)]
    simp only [List.map_cons, List.flatten_cons, List.flatten_append]
    rw [flatten_map_flatten]
  have hshape : ∀ l ∈ ((m.main :: pySorted (m.sub_sections.map Prod.snd)).map
      sectLines).flatten, ∃ body, l = body ++ ['\n'] ∧ ∀ c ∈ body, c ≠ '\n' := by
    intro l hl
    obtain ⟨lines, hlines, hl⟩ := List.mem_flatten.mp hl
    obtain ⟨s, hs, rfl⟩ := List.mem_map.mp hlines
    exact sectLines_shape s (hallgood s hs) l hl
  have hsplit : pySplitLines (sectBytes m.main ['\n'] ++
      ((pySorted (m.sub_sections.map Prod.snd)).map
        (fun s => sectBytes s ['\n'])).flatten) =
      ((m.main :: pySorted (m.sub_sections.map Prod.snd)).map
        sectLines).flatten := by
    rw [houtlines]
    have := pySplitLines_flatten
      (((m.main :: pySorted (m.sub_sections.map Prod.snd)).map
        sectLines).flatten) [] hshape
    rw [show pySplitLines ([] : PStr) = [] from rfl] at this
    simpa using this
  have hne : (sectBytes m.main ['\n'] ++
      ((pySorted (m.sub_sections.map Prod.snd)).map
        (fun s => sectBytes s ['\n'])).flatten : PStr) ≠ [] := by
    simp [sectBytes]
  have hpsec : parse_sections (sectBytes m.main ['\n'] ++
      ((pySorted (m.sub_sections.map Prod.snd)).map
        (fun s => sectBytes s ['\n'])).flatten) =
      .ok (tokensOf m.main ::
        (pySorted (m.sub_sections.map Prod.snd)).map tokensOf) := by
    simp only [parse_sections, if_neg hne, hsplit]
    have := psLoop_blocks (m.main :: pySorted (m.sub_sections.map Prod.snd))
      0 [] hallgood
    simpa using this
  -- loading the first section into the fresh main section
  obtain ⟨x, restM, hmm⟩ := hmainhead
  have hmainkeys := hmain.2.1
  rw [hmm] at hmainkeys
  simp only [List.map_cons, List.nodup_cons] at hmainkeys
  have hloadMain : load freshManifest.main (tokensOf m.main) = .ok m.main := by
    rw [hmm]
    apply load_into_fresh "Manifest-Version".toList "1.0".toList x restM
    · decide
    · intro kv hkv
      refine ⟨(hmain.2.2 kv (by rw [hmm]; simp [hkv])).2.1, ?_⟩
      intro hc
      exact hmainkeys.1 (hc ▸ List.mem_map_of_mem Prod.fst hkv)
    · exact hmainkeys.2
  -- registering the remaining sections
  have h1 : ∀ p ∈ m.sub_sections, odLookup p.2 "Name".toList = p.1 := by
    intro p hp
    obtain ⟨_, nm, restS, hs, hfst⟩ := hsubs p hp
    rw [hs, hfst]
    simp [odLookup]
  have h2 : (m.sub_sections.map Prod.snd).map
      (fun s => odLookup s "Name".toList) = m.sub_sections.map Prod.fst := by
    rw [List.map_map]
    exact List.map_congr_left (fun p hp => h1 p hp)
  have hnamesSorted : ((pySorted (m.sub_sections.map Prod.snd)).map
      (fun s => odLookup s "Name".toList)).Nodup :=
    ((hperm.map (fun s => odLookup s "Name".toList)).nodup_iff).mpr
      (h2 ▸ hnames)
  have hsubsLoop : parseSubsLoop
      ((pySorted (m.sub_sections.map Prod.snd)).map tokensOf) [] =
      .ok ((pySorted (m.sub_sections.map Prod.snd)).map
        (fun s => (odLookup s "Name".toList, s))) := by
    have := parseSubsLoop_sections (pySorted (m.sub_sections.map Prod.snd))
      [] hsorted hnamesSorted (by simp)
    simpa using this
  -- run the parser
  have hparse : Manifest.parse freshManifest (sectBytes m.main ['\n'] ++
      ((pySorted (m.sub_sections.map Prod.snd)).map
        (fun s => sectBytes s ['\n'])).flatten) =
      .ok { main := m.main,
            sub_sections := (pySorted (m.sub_sections.map Prod.snd)).map
              (fun s => (odLookup s "Name".toList, s)),
            linesep := none } := by
    simp only [Manifest.parse, hpsec, hloadMain]
    have hfsub : freshManifest.sub_sections = [] := rfl
    rw [hfsub]
    simp only [hsubsLoop]
    rfl
  refine ⟨_, _, hstore, hparse, rfl, ?_, rfl⟩
  -- the parsed sub-sections are a permutation of the originals
  have hmapped : ((m.sub_sections.map Prod.snd).map
      (fun s => (odLookup s "Name".toList, s))) = m.sub_sections := by
    rw [List.map_map]
    refine List.map_congr_left ?_ |>.trans (List.map_id m.sub_sections)
    intro p hp
    show (odLookup p.2 "Name".toList, p.2) = p
    rw [h1 p hp]
  have hp2 := hperm.map (fun s => (odLookup s "Name".toList, s))
  rw [hmapped] at hp2
  exact hp2

theorem psLoop_blocks_before (ss : List Sect) :
    ∀ (rest : List PStr) (n : Nat) (acc : List (List KVF)),
    (∀ s ∈ ss, goodSect s) →
    psLoop ((ss.map sectLines).flatten ++ rest) n none acc =
      psLoop rest (n + (ss.map (fun s => s.length + 1)).sum) none
        (acc ++ ss.map tokensOf) := by
  induction ss with
  | nil =>
    intro rest n acc _
    simp
  | cons s tail ih =>
    intro rest n acc hgood
    simp only [List.map_cons, List.flatten_cons, List.append_assoc]
    rw [psLoop_sectBlock s ((tail.map sectLines).flatten ++ rest) n acc
      (hgood s (by simp))]
    rw [ih rest (n + s.length + 1) (acc ++ [tokensOf s])
      (fun t ht => hgood t (by simp [ht]))]
    congr 1
    · simp only [List.map_cons, List.sum_cons]
      omega
    · simp

/-- C5 (amended): whenever the tokenizer stands at the start of a section
— at the start of the input, or after a blank line has ended a previous
well-formed section — and the first non-blank content is a line whose
cleaned content begins with a space (a continuation with no preceding
key), tokenization raises `MalformedManifest` carrying the **0-based**
line number of the offending line (`enumerate` counts from 0): an input
whose very first line is `" continued"` raises the error citing line 0,
not line 1, and `"K: v\n\n x\n"` raises citing line 2. -/
theorem C5_continuation_without_key (data : PStr) (ss : List Sect)
    (pre : List PStr) (l : PStr) (rest : List PStr) (cs : PStr)
    (hsplit : pySplitLines data =
      (ss.map sectLines).flatten ++ (pre ++ l :: rest))
    (hss : ∀ s ∈ ss, goodSect s)
    (hpre : ∀ p ∈ pre, cleanline p = .ok [])
    (hl : cleanline l = .ok (' ' :: cs)) :
    parse_sections data =
      .error (.malformedManifest
        ((ss.map (fun s => s.length + 1)).sum + pre.length)) := by
  have hne : ((ss.map sectLines).flatten ++ (pre ++ l :: rest) :
      List PStr) ≠ [] := by
    intro h
    rcases List.append_eq_nil.mp h with ⟨_, h2⟩
    rcases List.append_eq_nil.mp h2 with ⟨_, h3⟩
    exact List.noConfusion h3
  have hdata : data ≠ [] := by
    intro hd
    rw [hd] at hsplit
    exact hne (by simpa [pySplitLines, splitGo] using hsplit.symm)
  simp only [parse_sections, if_neg hdata, hsplit]
  rw [psLoop_blocks_before ss (pre ++ l :: rest) 0 [] hss]
  rw [psLoop_blanks pre (l :: rest) _ _ hpre]
  simp only [psLoop, hl]
  rw [if_neg (by simp), if_pos (by simp)]
  simp

theorem C5_continuation_without_key_witness :
    pySplitLines "K: v\n\n x\n".toList =
      ([[("K".toList, "v".toList)]].map sectLines).flatten ++
        ([] ++ " x\n".toList :: []) ∧
    cleanline " x\n".toList = .ok (' ' :: "x".toList) ∧
    parse_sections "K: v\n\n x\n".toList = .error (.malformedManifest 2) :=
  ⟨rfl, rfl,
   C5_continuation_without_key "K: v\n\n x\n".toList
     [[("K".toList, "v".toList)]] [] " x\n".toList [] "x".toList rfl
     (by
       intro s hs
       rw [List.mem_singleton] at hs
       subst hs
       decide)
     (fun p hp => absurd hp (List.not_mem_nil p))
     rfl⟩

theorem C6_store_parse_roundtrip_witness :
    ∃ out m',
      Manifest.store mEx (some ['\n']) ['\n'] = .ok out ∧
      Manifest.parse freshManifest out = .ok m' ∧
      m'.main = mEx.main ∧
      m'.sub_sections.Perm mEx.sub_sections ∧
      m'.linesep = none :=
  C6_store_parse_roundtrip mEx ['\n'] (by decide)
    ⟨"1.0".toList, [], rfl⟩
    (by
      intro p hp
      rcases List.mem_cons.mp hp with rfl | hp2
      · exact ⟨by decide, "b".toList, [], rfl, rfl⟩
      · rcases List.mem_singleton.mp hp2 with rfl
        exact ⟨by decide, "a".toList, [("X".toList, "1".toList)], rfl, rfl⟩)
    (by decide)

end Jvt
